import Mathlib

/-!
Verification of the message-handling core of the WhatsApp bot repository.
The repository contains four near-duplicate variants of the same bot:
`src/src/app.ts` (the named variant) and `src/unnamed/part_000 .. part_003`.
Each definition below is a shallow embedding of one function of one variant,
translated directly from the TypeScript source; the doc comment of every
definition names the variant and function it embeds.
Timestamps are modelled as `Nat` milliseconds (JavaScript `Date.now()`),
strings as `List Char`, and the contents of the various `Map` objects as
`Option`-valued per-user entries (all maps in the source are keyed by the
user id, and every claim is about a single user's entries).
-/

namespace WhatsBot

/-- `MAX_MESSAGES_PER_DAY` of `src/src/app.ts` (line 14). -/
def MAX_MESSAGES_PER_DAY : Nat := 20

/-- `BAN_DURATION` of `src/src/app.ts` (line 15): 24 hours in milliseconds. -/
def BAN_DURATION : Nat := 24 * 60 * 60 * 1000

/-- Per-user admission state of `src/src/app.ts`: the user's entry in
`userMessageCount` (a `{ count, firstMessageTime }` record, or absent) and the
user's entry in `userBanList` (a ban-expiry timestamp, or absent). -/
structure AppUserState where
  stats : Option (Nat × Nat)
  ban : Option Nat
deriving DecidableEq, Repr

/-- `isUserBanned` of `src/src/app.ts` (lines 42-50), acting on the user's
`userBanList` entry.  Returns the boolean result together with the entry after
the call (the call deletes the entry when `Date.now() > banExpiry`).  A stored
expiry of `0` is falsy in JavaScript, so `!banExpiry` returns false without
deleting it. -/
def isUserBannedApp (now : Nat) (ban : Option Nat) : Bool × Option Nat :=
  match ban with
  | none => (false, none)
  | some banExpiry =>
    if banExpiry = 0 then (false, some banExpiry)
    else if banExpiry < now then (false, none)
    else (true, some banExpiry)

/-- `rateLimitUser` of `src/src/app.ts` (lines 18-33), acting on the user's
`userMessageCount` entry.  Returns the admission boolean together with the
updated entry (the function always writes the entry back).  JavaScript computes
`currentTime - userStats.firstMessageTime > 24h` with signed arithmetic; a
negative difference fails the comparison exactly as truncated `Nat`
subtraction does. -/
def rateLimitUserApp (now : Nat) (stats : Option (Nat × Nat)) : Bool × (Nat × Nat) :=
  let userStats := stats.getD (0, now)
  let userStats' :=
    if 24 * 60 * 60 * 1000 < now - userStats.2 then (1, now)
    else (userStats.1 + 1, userStats.2)
  (decide (userStats'.1 ≤ MAX_MESSAGES_PER_DAY), userStats')

/-- Outcome of one inbound message in the admission path of `welcomeFlow`. -/
inductive ArrivalOutcome
  | ignored
  | limited
  | admitted
deriving DecidableEq, Repr

/-- The admission path of `welcomeFlow` in `src/src/app.ts` (lines 94-105) for
one inbound message at time `now`: first `isUserBanned` (dropping the message
when banned), then `rateLimitUser` (on denial, `banUser(userId, BAN_DURATION)`
sets the ban entry to `now + BAN_DURATION` and the message is dropped with a
notice); an admitted message is enqueued. -/
def appArrival (now : Nat) (s : AppUserState) : ArrivalOutcome × AppUserState :=
  if (isUserBannedApp now s.ban).1 then
    (ArrivalOutcome.ignored, { s with ban := (isUserBannedApp now s.ban).2 })
  else if (rateLimitUserApp now s.stats).1 then
    (ArrivalOutcome.admitted, ⟨some (rateLimitUserApp now s.stats).2, (isUserBannedApp now s.ban).2⟩)
  else
    (ArrivalOutcome.limited, ⟨some (rateLimitUserApp now s.stats).2, some (now + BAN_DURATION)⟩)

/-- Run the admission path of `src/src/app.ts` over a list of arrival times,
returning the outcomes in order and the final per-user state. -/
def runAdmissions : List Nat → AppUserState → List ArrivalOutcome × AppUserState
  | [], s => ([], s)
  | t :: ts, s =>
    ((appArrival t s).1 :: (runAdmissions ts (appArrival t s).2).1,
     (runAdmissions ts (appArrival t s).2).2)

/-- `MAX_MESSAGES` of `src/unnamed/part_001` (line 91). -/
def MAX_MESSAGES : Nat := 20

/-- `RESET_PERIOD` of `src/unnamed/part_001` (line 92): 24 hours in ms. -/
def RESET_PERIOD : Nat := 24 * 60 * 60 * 1000

/-- The `UserMessageInfo` interface of `src/unnamed/part_001` (lines 14-20).
The queue holds tasks; a task is modelled by the outcome of its completion
call (`none` = the call throws, `some s` = it returns the text `s`). -/
structure UserMessageInfo where
  count : Nat
  firstMessageTime : Nat
  queue : List (Option (List Char))
  processing : Bool
  bannedNotified : Bool
deriving DecidableEq, Repr

/-- The `RateLimitResult` interface of `src/unnamed/part_001` (lines 22-26). -/
structure RateLimitResult where
  allowed : Bool
  count : Nat
  timeUntilReset : Nat
deriving DecidableEq, Repr

/-- `rateLimitUser` of `src/unnamed/part_001` (lines 109-145), acting on the
user's `userMessageInfo` cache entry: reset the entry when absent or when the
reset period has elapsed, then either deny without touching `count` (setting
only `bannedNotified`), or increment `count` and allow.  Returns the
`RateLimitResult` and the entry written back to the cache. -/
def rateLimitUser001 (now : Nat) (info : Option UserMessageInfo) :
    RateLimitResult × UserMessageInfo :=
  let userInfo :=
    match info with
    | none => UserMessageInfo.mk 0 now [] false false
    | some u =>
      if RESET_PERIOD ≤ now - u.firstMessageTime then UserMessageInfo.mk 0 now [] false false
      else u
  let timeUntilReset := RESET_PERIOD - (now - userInfo.firstMessageTime)
  if MAX_MESSAGES ≤ userInfo.count then
    (⟨false, userInfo.count, timeUntilReset⟩, { userInfo with bannedNotified := true })
  else
    (⟨true, userInfo.count + 1, timeUntilReset⟩,
      { userInfo with count := userInfo.count + 1, bannedNotified := false })

/-- Per-user module state of `src/unnamed/part_002`: the user's entry in
`userMessageCounts` and in `userBanList`. -/
structure State002 where
  cnt : Option Nat
  ban : Option Nat
deriving DecidableEq, Repr

/-- `rateLimitUser` of `src/unnamed/part_002` (lines 37-46): unconditionally
increment the stored count (`?? 0` when absent) and allow iff the new count
does not exceed 30.  It never reads the clock. -/
def rateLimitUser002 (s : State002) : Bool × State002 :=
  let newCount := s.cnt.getD 0 + 1
  (decide (newCount ≤ 30), { s with cnt := some newCount })

/-- `banUser` of `src/unnamed/part_002` (lines 31-34): sets the ban expiry,
touching nothing else (in particular it does not clear the message count). -/
def banUser002 (now duration : Nat) (s : State002) : State002 :=
  { s with ban := some (now + duration) }

/-- `isUserBanned` of `src/unnamed/part_002` (lines 20-28): identical to the
`src/src/app.ts` version; may delete the ban entry but never touches the
count. -/
def isUserBanned002 (now : Nat) (s : State002) : Bool × State002 :=
  ((isUserBannedApp now s.ban).1, { s with ban := (isUserBannedApp now s.ban).2 })

/-- One operation of the `src/unnamed/part_002` module. -/
inductive Op002
  | rate
  | ban (now duration : Nat)
  | check (now : Nat)
deriving DecidableEq, Repr

/-- Apply one `src/unnamed/part_002` operation to the per-user state. -/
def apply002 : Op002 → State002 → State002
  | Op002.rate, s => (rateLimitUser002 s).2
  | Op002.ban now d, s => banUser002 now d s
  | Op002.check now, s => (isUserBanned002 now s).2

/-- Run a sequence of `src/unnamed/part_002` operations. -/
def run002 : List Op002 → State002 → State002
  | [], s => s
  | op :: ops, s => run002 ops (apply002 op s)

/-- The results of the `rateLimitUser` calls occurring in an operation
sequence of `src/unnamed/part_002`, in order. -/
def rateResults002 : List Op002 → State002 → List Bool
  | [], _ => []
  | Op002.rate :: ops, s => (rateLimitUser002 s).1 :: rateResults002 ops (apply002 Op002.rate s)
  | op :: ops, s => rateResults002 ops (apply002 op s)

/-- The `SimpleLRUCache` class of `src/unnamed/part_001` (lines 29-85).  The
backing JavaScript `Map` is modelled by its entry list in insertion order:
the head is the oldest (least recently refreshed) entry, and `Map.set` of an
absent key appends at the tail. -/
structure SimpleLRUCache (K V : Type) where
  cache : List (K × V)
  capacity : Nat

/-- The `has` method (lines 75-77): a pure key lookup; it does not refresh
recency. -/
def lruHas [DecidableEq K] (c : SimpleLRUCache K V) (k : K) : Bool :=
  c.cache.any (fun e => decide (e.1 = k))

/-- The `get` method (lines 43-51): on a hit, delete the entry and re-insert
it at the tail to mark it as recently used.  Returns the value (or `none` on a
miss) and the cache afterwards. -/
def lruGet [DecidableEq K] (c : SimpleLRUCache K V) (k : K) :
    Option V × SimpleLRUCache K V :=
  match c.cache.find? (fun e => decide (e.1 = k)) with
  | none => (none, c)
  | some e =>
    (some e.2, ⟨c.cache.eraseP (fun x => decide (x.1 = k)) ++ [(k, e.2)], c.capacity⟩)

/-- The `set` method (lines 59-68): delete an existing entry for the key;
otherwise, at capacity, delete the first entry of the `Map` (the least
recently used); then insert the new entry at the tail.  On an empty cache the
eviction branch deletes `undefined`, a no-op. -/
def lruSet [DecidableEq K] (c : SimpleLRUCache K V) (k : K) (v : V) :
    SimpleLRUCache K V :=
  if c.cache.any (fun e => decide (e.1 = k)) then
    ⟨c.cache.eraseP (fun x => decide (x.1 = k)) ++ [(k, v)], c.capacity⟩
  else if c.capacity ≤ c.cache.length then
    match c.cache with
    | [] => ⟨[(k, v)], c.capacity⟩
    | _ :: rest => ⟨rest ++ [(k, v)], c.capacity⟩
  else ⟨c.cache ++ [(k, v)], c.capacity⟩

/-- One operation on the user-info cache (`userMessageInfo` is a
`SimpleLRUCache` of capacity 1000, line 88); keys and values are both
modelled as naturals. -/
inductive LRUOp
  | get (k : Nat)
  | set (k : Nat) (v : Nat)
  | has (k : Nat)
deriving DecidableEq, Repr

/-- Apply one cache operation (only `get` and `set` mutate the cache). -/
def lruApply (op : LRUOp) (c : SimpleLRUCache Nat Nat) : SimpleLRUCache Nat Nat :=
  match op with
  | LRUOp.get k => (lruGet c k).2
  | LRUOp.set k v => lruSet c k v
  | LRUOp.has _ => c

/-- Run a sequence of cache operations from the freshly constructed
`new SimpleLRUCache(1000)`. -/
def runLRU (ops : List LRUOp) : SimpleLRUCache Nat Nat :=
  ops.foldl (fun c op => lruApply op c) ⟨[], 1000⟩

/-- Sequence of `set` operations with the distinct keys `0, …, n-1`, used to
fill the cache to a given size. -/
def fillOps (n : Nat) : List LRUOp := (List.range n).map (fun i => LRUOp.set i 0)

/-- JavaScript whitespace (`\s`, and the characters `String.trim` strips),
restricted to the whitespace characters occurring in this development. -/
def isJsSpace (c : Char) : Bool :=
  decide (c = ' ' ∨ c = '\n' ∨ c = '\t' ∨ c = '\r')

/-- `trim()` on a character list: strip whitespace from both ends. -/
def trimChars (l : List Char) : List Char :=
  ((l.dropWhile isJsSpace).reverse.dropWhile isJsSpace).reverse

/-- One global pass of `replace(/op.*?cl/g, "")` (for example `/\[.*?\]/g` in
`src/src/app.ts` line 59, or `/【.*?】/g` in `src/unnamed/part_001` line 211).
`pending = some buf` means an `op` has been read and `buf` (reversed) holds
the characters scanned since: a lazy match ends at the first `cl`; a newline
or the end of input aborts the attempt, and because `buf` then contains no
`cl` and no newline, the regex engine finds no later match inside it either,
so the aborted region is emitted verbatim. -/
def stripGo (op cl : Char) (pending : Option (List Char)) : List Char → List Char
  | [] =>
    match pending with
    | none => []
    | some buf => op :: buf.reverse
  | c :: rest =>
    match pending with
    | none => if c = op then stripGo op cl (some []) rest else c :: stripGo op cl none rest
    | some buf =>
      if c = cl then stripGo op cl none rest
      else if c = '\n' then (op :: buf.reverse ++ ['\n']) ++ stripGo op cl none rest
      else stripGo op cl (some (c :: buf)) rest

/-- `replace(/op.*?cl/g, "")` on a whole text. -/
def stripDelim (op cl : Char) (l : List Char) : List Char := stripGo op cl none l

/-- One global pass of `replace(/\*\*(.*?)\*\*/g, "*$1*")` of `src/src/app.ts`
(line 60).  `pending = some buf` means an opening `**` has been read and
`buf` (reversed) holds the content scanned since; the lazy content ends at
the first following `**`, and a newline or the end of input aborts the
attempt, whereupon the scanned region is emitted verbatim (it cannot contain
a later full match, having no closing `**` before the newline). -/
def boldGo (pending : Option (List Char)) : List Char → List Char
  | [] =>
    match pending with
    | none => []
    | some buf => '*' :: '*' :: buf.reverse
  | [c] =>
    match pending with
    | none => [c]
    | some buf => '*' :: '*' :: buf.reverse ++ [c]
  | c1 :: c2 :: rest =>
    match pending with
    | none =>
      if c1 = '*' ∧ c2 = '*' then boldGo (some []) rest
      else c1 :: boldGo none (c2 :: rest)
    | some buf =>
      if c1 = '*' ∧ c2 = '*' then '*' :: buf.reverse ++ '*' :: boldGo none rest
      else if c1 = '\n' then ('*' :: '*' :: buf.reverse ++ ['\n']) ++ boldGo none (c2 :: rest)
      else boldGo (some (c1 :: buf)) (c2 :: rest)

/-- `replace(/\*\*(.*?)\*\*/g, "*$1*")` on a whole text. -/
def collapseBoldApp (l : List Char) : List Char := boldGo none l

/-- `split(/\n\n+/)`: split at maximal runs of at least two newlines.
`acc` is the fragment being built and `nl` counts newlines read since its
last non-newline character (a run of two or more is a separator; a single
one belongs to the fragment). -/
def splitGo : List Char → List Char → Nat → List (List Char)
  | [], acc, nl => if 2 ≤ nl then [acc, []] else [acc ++ List.replicate nl '\n']
  | c :: rest, acc, nl =>
    if c = '\n' then splitGo rest acc (nl + 1)
    else if 2 ≤ nl then acc :: splitGo rest [c] 0
    else splitGo rest (acc ++ List.replicate nl '\n' ++ [c]) 0

/-- `split(/\n\n+/)` on a whole text. -/
def splitParas (l : List Char) : List (List Char) := splitGo l [] 0

/-- The text cleanup of `processUserMessage` in `src/src/app.ts` (lines
58-60): strip `[...]` citations, then collapse `**text**` to `*text*`;
applied to the whole response before splitting. -/
def appClean (r : List Char) : List Char := collapseBoldApp (stripDelim '[' ']' r)

/-- The fragments emitted by `processUserMessage` of `src/src/app.ts` (lines
53-67) for one task, the task being modelled by the outcome of its `toAsk`
call: on success (`some r`) the cleaned response is split on `/\n\n+/` and
each chunk is trimmed and emitted; on failure (`none`) the exception
propagates to `handleQueue`, whose catch block only logs, so nothing is
emitted. -/
def appEmits (outcome : Option (List Char)) : List (List Char) :=
  match outcome with
  | none => []
  | some r => (splitParas (appClean r)).map trimChars

/-- Modelled from the spec: the claim's pipeline in its stated order — split
the raw completion text on runs of one or more blank lines first, then
normalize each resulting fragment (strip bracket citations, collapse doubled
emphasis, trim).  Used only for comparison with the source-order pipeline
`appEmits`, which normalizes the whole text before splitting. -/
def specSplitEmits (r : List Char) : List (List Char) :=
  (splitParas r).map (fun ch => trimChars (appClean ch))

/-- `replace(/\*\*/g, "*")` of `src/unnamed/part_001` (line 212): each pair of
consecutive asterisks becomes a single one, scanning left to right. -/
def collapsePairs : List Char → List Char
  | [] => []
  | [c] => [c]
  | c1 :: c2 :: rest =>
    if c1 = '*' ∧ c2 = '*' then '*' :: collapsePairs rest
    else c1 :: collapsePairs (c2 :: rest)

/-- `replace(/\n-\s/g, "\n")` of `src/unnamed/part_001` (line 213): a newline,
a dash and one whitespace character collapse to the newline; the replacement
is not rescanned. -/
def collapseDash : List Char → List Char
  | [] => []
  | [c] => [c]
  | [c1, c2] => [c1, c2]
  | c1 :: c2 :: c3 :: rest =>
    if c1 = '\n' ∧ c2 = '-' ∧ isJsSpace c3 = true then '\n' :: collapseDash rest
    else c1 :: collapseDash (c2 :: c3 :: rest)

/-- The generic user-facing failure notice of `src/unnamed/part_001`
(lines 221 and 254). -/
def failNotice : List Char :=
  "Una disculpa, ocurrio un error mientras procesaba tu mensaje. Por favor intentalo nuevamente.".toList

/-- The per-chunk cleanup of `processUserMessage` in `src/unnamed/part_001`
(lines 209-213): trim, strip `【...】` citations, collapse `**`, and drop the
dash of `"\n- "` bullets. -/
def cleanChunk001 (ch : List Char) : List Char :=
  collapseDash (collapsePairs (stripDelim '【' '】' (trimChars ch)))

/-- The fragments emitted by `processUserMessage` of `src/unnamed/part_001`
(lines 197-223) for one task, modelled by its `toAsk` outcome: a throwing
call (`none`) and an empty (falsy, line 203) response both land in the
function's own catch block, which emits exactly the generic failure notice;
otherwise the response is split on `/\n\n+/` and each chunk is cleaned and
emitted in order. -/
def processEmits001 (outcome : Option (List Char)) : List (List Char) :=
  match outcome with
  | none => [failNotice]
  | some r => if r = [] then [failNotice] else (splitParas r).map cleanChunk001

/-- Whether a task's completion call fails (throws, or returns an empty
response). -/
def taskFails (outcome : Option (List Char)) : Bool :=
  match outcome with
  | none => true
  | some r => decide (r = [])

/-- The `while` loop of `handleQueue` in `src/unnamed/part_001` (lines
247-258): shift the head task, run `processUserMessage` on it (which handles
its own failures and does not throw), continue with the remaining queue;
returns all emitted fragments in order. -/
def drainLoop001 : List (Option (List Char)) → List (List Char)
  | [] => []
  | t :: rest => processEmits001 t ++ drainLoop001 rest

/-- Events observable during one `handleQueue` invocation of
`src/unnamed/part_000` (lines 68-94): the `setInterval` start and
`clearInterval` stop of the typing heartbeat, one periodic typing tick, and
the settlement of one task (recorded by its completion outcome; the task's
own emissions are the business of `processUserMessage`, not of the
heartbeat). -/
inductive HBEvent
  | hbStart
  | hbTick
  | taskDone (outcome : Option (List Char))
  | hbStop
deriving DecidableEq, Repr

/-- The `while` loop of `handleQueue` in `src/unnamed/part_000` (lines
79-89) as an event trace: each task is paired with the number of 1-second
ticks that fire while it is being processed; a task's failure is caught
inside the loop, so the loop never exits early. -/
def drainTrace000 : List (Option (List Char) × Nat) → List HBEvent
  | [] => []
  | (t, k) :: rest =>
    List.replicate k HBEvent.hbTick ++ HBEvent.taskDone t :: drainTrace000 rest

/-- `handleQueue` of `src/unnamed/part_000` (lines 68-94): an early return
while the user's lock is held (no drain session, no heartbeat); otherwise one
drain session: `setInterval` is started once before the loop, the queue is
drained, and `clearInterval` stops the heartbeat once after the loop
(`trailing` ticks may fire between the last task settling and the clear). -/
def handleQueue000 (locked : Bool) (tasks : List (Option (List Char) × Nat))
    (trailing : Nat) : List HBEvent :=
  if locked then []
  else
    HBEvent.hbStart ::
      (drainTrace000 tasks ++ List.replicate trailing HBEvent.hbTick ++ [HBEvent.hbStop])

/-- Truthiness of a user's `userLocks` entry: only a stored `true` is truthy
(an absent entry or a stored `false` lets `!userLocks.get(userId)` pass). -/
def lockHeld (l : Option Bool) : Bool := l.getD false

/-- State of the `src/src/app.ts` event loop restricted to one user: the
user's `userQueues` entry (a deleted queue and an empty one are
indistinguishable to the admission path, which recreates it), the `userLocks`
entry, the multiset of `processUserMessage` calls currently awaited for this
user (each one a suspended `handleQueue` drain loop holding its dequeued
task), and the history: tasks arrived, tasks settled, fragments emitted. -/
structure SysState where
  queue : List (Option (List Char))
  lockVal : Option Bool
  inCalls : List (Option (List Char))
  arrived : List (Option (List Char))
  done : List (Option (List Char))
  emitted : List (List Char)

/-- The atomic transitions of the `src/src/app.ts` event loop for one user.
Interleaving can only happen at `await` points, so each transition is one
synchronous segment of the source:
* `arriveSpawn` — an admitted message finds the lock falsy and the queue
  empty (`queue.length === 1` after the push, lines 107-117), so the handler
  calls `handleQueue` synchronously (lines 70-80): the lock is set, the task
  is shifted, and its `processUserMessage` call is started;
* `arriveQueue` — an admitted message only pushes its task (line 112) because
  the lock is truthy or the queue was non-empty;
* `resumeNext` — an awaited `processUserMessage` call settles (its fragments
  were emitted, a failure logged, lines 80-85), the `finally` releases the
  lock, and the loop finds the queue non-empty: it re-sets the lock, shifts
  the head, and starts the next call (lines 76-80);
* `resumeExit` — as above but the queue is empty: the loop exits and the
  lock and queue entries are deleted (lines 88-89). -/
inductive AppStep : SysState → SysState → Prop
  | arriveSpawn (s : SysState) (t : Option (List Char))
      (hlock : lockHeld s.lockVal = false) (hq : s.queue = []) :
      AppStep s ⟨[], some true, s.inCalls ++ [t], s.arrived ++ [t], s.done, s.emitted⟩
  | arriveQueue (s : SysState) (t : Option (List Char))
      (h : lockHeld s.lockVal = true ∨ s.queue ≠ []) :
      AppStep s ⟨s.queue ++ [t], s.lockVal, s.inCalls, s.arrived ++ [t], s.done, s.emitted⟩
  | resumeNext (s : SysState) (t : Option (List Char))
      (l1 l2 : List (Option (List Char))) (t' : Option (List Char))
      (q' : List (Option (List Char)))
      (hc : s.inCalls = l1 ++ t :: l2) (hq : s.queue = t' :: q') :
      AppStep s ⟨q', some true, (l1 ++ l2) ++ [t'], s.arrived, s.done ++ [t],
        s.emitted ++ appEmits t⟩
  | resumeExit (s : SysState) (t : Option (List Char))
      (l1 l2 : List (Option (List Char)))
      (hc : s.inCalls = l1 ++ t :: l2) (hq : s.queue = []) :
      AppStep s ⟨[], none, l1 ++ l2, s.arrived, s.done ++ [t],
        s.emitted ++ appEmits t⟩

/-- The initial state: no entries in any map, nothing arrived. -/
def initState : SysState := ⟨[], none, [], [], [], []⟩

/-- States the `src/src/app.ts` event loop can reach for one user. -/
def AppReachable (s : SysState) : Prop := Relation.ReflTransGen AppStep initState s

/-- The inductive invariant of the per-user event loop: at most one
completion call in flight; no call in flight exactly when the lock is not
held and the queue is empty; the arrival history is the settled tasks, then
the in-flight call, then the queue; and the emission history is the settled
tasks' fragments in order. -/
def appInv (s : SysState) : Prop :=
  s.inCalls.length ≤ 1 ∧
  (s.inCalls = [] → s.queue = [] ∧ lockHeld s.lockVal = false) ∧
  (s.inCalls ≠ [] → s.lockVal = some true) ∧
  s.arrived = s.done ++ s.inCalls ++ s.queue ∧
  s.emitted = (s.done.map appEmits).flatten

/-- A demonstration task and the states traversed when it arrives on an idle
user and its completion call settles. -/
def demoTask : Option (List Char) := some ("Hola".toList)

/-- The state right after `demoTask` arrives and its call is started. -/
def demoState1 : SysState := ⟨[], some true, [demoTask], [demoTask], [], []⟩

/-- The state after the call settles and the drain loop exits. -/
def demoState2 : SysState := ⟨[], none, [], [demoTask], [demoTask], appEmits demoTask⟩


theorem runAdmissions_append (l1 l2 : List Nat) (s : AppUserState) :
    runAdmissions (l1 ++ l2) s =
      ((runAdmissions l1 s).1 ++ (runAdmissions l2 (runAdmissions l1 s).2).1,
       (runAdmissions l2 (runAdmissions l1 s).2).2) := by
  induction l1 generalizing s with
  | nil => simp [runAdmissions]
  | cons t l1 ih => simp [runAdmissions, ih]

theorem appArrival_inwindow (t0 t : Nat) (k : Nat)
    (hw : t - t0 ≤ 24 * 60 * 60 * 1000) (hk : k + 1 ≤ 20) :
    appArrival t ⟨some (k, t0), none⟩ = (ArrivalOutcome.admitted, ⟨some (k + 1, t0), none⟩) := by
  simp [appArrival, isUserBannedApp, rateLimitUserApp, MAX_MESSAGES_PER_DAY,
    Nat.not_lt.mpr hw, hk]

theorem runAdmissions_inwindow (t0 : Nat) (ts : List Nat) (k : Nat)
    (hw : ∀ t ∈ ts, t - t0 ≤ 24 * 60 * 60 * 1000) (hk : k + ts.length ≤ 20) :
    runAdmissions ts ⟨some (k, t0), none⟩ =
      (List.replicate ts.length ArrivalOutcome.admitted, ⟨some (k + ts.length, t0), none⟩) := by
  induction ts generalizing k with
  | nil => simp [runAdmissions]
  | cons t ts ih =>
    have hstep := appArrival_inwindow t0 t k (hw t (by simp)) (by simp at hk; omega)
    have hrest := ih (k + 1) (fun x hx => hw x (by simp [hx])) (by simp at hk ⊢; omega)
    simp [runAdmissions, hstep, hrest, List.replicate_succ]
    omega

/-- C4: starting from a fresh window, the first 20 messages (all within 24
hours of the first) are admitted; the 21st message within the window is denied
and bans the user until `u21 + BAN_DURATION`; and the first message arriving
strictly after that expiry is admitted again. -/
theorem c4_limit_then_ban_then_recover (u1 u21 v : Nat) (rest : List Nat)
    (hlen : rest.length = 19)
    (hw : ∀ t ∈ rest, t - u1 ≤ 24 * 60 * 60 * 1000)
    (h12 : u1 ≤ u21)
    (h21 : u21 - u1 ≤ 24 * 60 * 60 * 1000)
    (hv : u21 + BAN_DURATION < v) :
    (runAdmissions (u1 :: (rest ++ [u21])) ⟨none, none⟩).1 =
      List.replicate 20 ArrivalOutcome.admitted ++ [ArrivalOutcome.limited] ∧
    (runAdmissions (u1 :: (rest ++ [u21])) ⟨none, none⟩).2.ban = some (u21 + BAN_DURATION) ∧
    (appArrival v (runAdmissions (u1 :: (rest ++ [u21])) ⟨none, none⟩).2).1 =
      ArrivalOutcome.admitted := by
  have h1 : appArrival u1 ⟨none, none⟩ = (ArrivalOutcome.admitted, ⟨some (1, u1), none⟩) := by
    simp [appArrival, isUserBannedApp, rateLimitUserApp, MAX_MESSAGES_PER_DAY]
  have hmid := runAdmissions_inwindow u1 rest 1 hw (by omega)
  have h21s : appArrival u21 ⟨some (20, u1), none⟩ =
      (ArrivalOutcome.limited, ⟨some (21, u1), some (u21 + BAN_DURATION)⟩) := by
    simp [appArrival, isUserBannedApp, rateLimitUserApp, MAX_MESSAGES_PER_DAY,
      BAN_DURATION, Nat.not_lt.mpr h21]
  have hb0 : ¬ u21 + BAN_DURATION = 0 := by simp [BAN_DURATION]
  have hwv : 24 * 60 * 60 * 1000 < v - u1 := by
    simp only [BAN_DURATION] at hv; omega
  have hfin : (appArrival v ⟨some (21, u1), some (u21 + BAN_DURATION)⟩).1 =
      ArrivalOutcome.admitted := by
    simp [appArrival, isUserBannedApp, rateLimitUserApp, MAX_MESSAGES_PER_DAY,
      hb0, hv, hwv]
  have hrun : runAdmissions (u1 :: (rest ++ [u21])) ⟨none, none⟩ =
      (ArrivalOutcome.admitted :: (List.replicate 19 ArrivalOutcome.admitted ++
        [ArrivalOutcome.limited]), ⟨some (21, u1), some (u21 + BAN_DURATION)⟩) := by
    simp only [runAdmissions, h1]
    rw [runAdmissions_append]
    rw [hlen] at hmid
    simp [hmid, runAdmissions, h21s]
  rw [hrun]
  refine ⟨?_, rfl, hfin⟩
  simp [List.replicate_succ]

/-- Witness for C4 at concrete arrival times: first message at time 0,
messages 2-20 also at time 0, the 21st at time 0, and the recovery message at
time `86400001` (one millisecond after the ban expires). -/
theorem c4_limit_then_ban_then_recover_witness :
    ((List.replicate 19 (0 : Nat)).length = 19 ∧
      (∀ t ∈ List.replicate 19 (0 : Nat), t - 0 ≤ 24 * 60 * 60 * 1000) ∧
      0 + BAN_DURATION < 86400001) ∧
    ((runAdmissions ((0 : Nat) :: (List.replicate 19 (0 : Nat) ++ [0])) ⟨none, none⟩).1 =
        List.replicate 20 ArrivalOutcome.admitted ++ [ArrivalOutcome.limited] ∧
      (runAdmissions ((0 : Nat) :: (List.replicate 19 (0 : Nat) ++ [0])) ⟨none, none⟩).2.ban =
        some (0 + BAN_DURATION) ∧
      (appArrival 86400001
          (runAdmissions ((0 : Nat) :: (List.replicate 19 (0 : Nat) ++ [0])) ⟨none, none⟩).2).1 =
        ArrivalOutcome.admitted) :=
  ⟨⟨by simp, by simp, by decide⟩,
    c4_limit_then_ban_then_recover 0 0 86400001 (List.replicate 19 0)
      (by simp) (by simp) (by decide) (by decide) (by decide)⟩

/-- C9 counterexample: at the exact expiry instant (`banUntil = now = 5`,
so `banUntil ≤ now`), `isUserBanned` of `src/src/app.ts` returns `true` and
keeps the entry, contradicting the claim that it returns `false` and removes
the stale entry whenever `banUntil ≤ now`. -/
theorem c9_boundary_counterexample :
    (5 : Nat) ≤ 5 ∧ isUserBannedApp 5 (some 5) = (true, some 5) := by decide

/-- C9 (amended): `isUserBanned` of `src/src/app.ts` lazily expires stale bans
at the call site: when `banUntil < now` (strictly) it removes the entry and
returns `false`; it returns `true` exactly while `now ≤ banUntil` (for a
nonzero stored expiry); and an absent entry yields `false`. -/
theorem c9_lazy_ban_expiry (now now2 b b2 : Nat) (hb : 0 < b) (h1 : b < now)
    (hb2 : 0 < b2) (h2 : now2 ≤ b2) :
    isUserBannedApp now (some b) = (false, none) ∧
    isUserBannedApp now2 (some b2) = (true, some b2) ∧
    isUserBannedApp now none = (false, none) := by
  refine ⟨?_, ?_, rfl⟩
  · simp [isUserBannedApp, Nat.pos_iff_ne_zero.mp hb, h1]
  · simp [isUserBannedApp, Nat.pos_iff_ne_zero.mp hb2, Nat.not_lt.mpr h2]

/-- Witness for C9 (amended) at `now = 10, b = 5` (expired, removed) and
`now2 = 3, b2 = 7` (still banned, kept). -/
theorem c9_lazy_ban_expiry_witness :
    ((0 : Nat) < 5 ∧ 5 < 10 ∧ (0 : Nat) < 7 ∧ 3 ≤ 7) ∧
    (isUserBannedApp 10 (some 5) = (false, none) ∧
      isUserBannedApp 3 (some 7) = (true, some 7) ∧
      isUserBannedApp 10 none = (false, none)) :=
  ⟨by decide, c9_lazy_ban_expiry 10 3 5 7 (by decide) (by decide) (by decide) (by decide)⟩

/-- C3: when the user's current-window count has already reached
`MAX_MESSAGES` (20), `rateLimitUser` of `src/unnamed/part_001` returns
`allowed = false` and leaves the stored count unchanged; and on every call
that returns `allowed = false` the stored count is unchanged (so the count is
incremented only on allowed calls). -/
theorem c3_denial_leaves_count_saturated (u u' : UserMessageInfo) (now now' : Nat)
    (hw : now - u.firstMessageTime < RESET_PERIOD)
    (hc : MAX_MESSAGES ≤ u.count)
    (hf : (rateLimitUser001 now' (some u')).1.allowed = false) :
    (rateLimitUser001 now (some u)).1.allowed = false ∧
    (rateLimitUser001 now (some u)).2.count = u.count ∧
    (rateLimitUser001 now' (some u')).2.count = u'.count := by
  refine ⟨?_, ?_, ?_⟩
  · simp [rateLimitUser001, Nat.not_le.mpr hw, hc]
  · simp [rateLimitUser001, Nat.not_le.mpr hw, hc]
  · by_cases hres : RESET_PERIOD ≤ now' - u'.firstMessageTime
    · exfalso
      have : (rateLimitUser001 now' (some u')).1.allowed = true := by
        simp [rateLimitUser001, hres, MAX_MESSAGES]
      simp [this] at hf
    · by_cases hmax : MAX_MESSAGES ≤ u'.count
      · simp [rateLimitUser001, hres, hmax]
      · exfalso
        have : (rateLimitUser001 now' (some u')).1.allowed = true := by
          simp [rateLimitUser001, hres, hmax]
        simp [this] at hf

/-- Witness for C3 at a saturated in-window entry: `count = 20`, window
started at time 0, call at time 0. -/
theorem c3_denial_leaves_count_saturated_witness :
    ((0 : Nat) - 0 < RESET_PERIOD ∧ MAX_MESSAGES ≤ 20 ∧
      (rateLimitUser001 0 (some ⟨20, 0, [], false, false⟩)).1.allowed = false) ∧
    ((rateLimitUser001 0 (some ⟨20, 0, [], false, false⟩)).1.allowed = false ∧
      (rateLimitUser001 0 (some ⟨20, 0, [], false, false⟩)).2.count = 20 ∧
      (rateLimitUser001 0 (some ⟨20, 0, [], false, false⟩)).2.count = 20) :=
  ⟨⟨by decide, by decide, by decide⟩,
    c3_denial_leaves_count_saturated ⟨20, 0, [], false, false⟩ ⟨20, 0, [], false, false⟩ 0 0
      (by decide) (by decide) (by decide)⟩

theorem apply002_cnt_mono (op : Op002) (s : State002) :
    s.cnt.getD 0 ≤ (apply002 op s).cnt.getD 0 := by
  cases op with
  | rate => simp [apply002, rateLimitUser002]
  | ban now d => simp [apply002, banUser002]
  | check now => simp [apply002, isUserBanned002]

theorem run002_cnt_mono (ops : List Op002) (s : State002) :
    s.cnt.getD 0 ≤ (run002 ops s).cnt.getD 0 := by
  induction ops generalizing s with
  | nil => simp [run002]
  | cons op ops ih => exact le_trans (apply002_cnt_mono op s) (ih (apply002 op s))

/-- C10: in `src/unnamed/part_002` each `rateLimitUser` call increments the
stored counter by exactly one, no operation of the module ever decreases the
counter, and once the counter exceeds 30 every subsequent `rateLimitUser`
call in any continuation of the run returns `false`. -/
theorem c10_counter_never_resets (s : State002) (op : Op002) (ops : List Op002)
    (h : 30 < s.cnt.getD 0) :
    (rateLimitUser002 s).2.cnt.getD 0 = s.cnt.getD 0 + 1 ∧
    s.cnt.getD 0 ≤ (apply002 op s).cnt.getD 0 ∧
    (rateResults002 ops s).all (fun b => b = false) = true := by
  refine ⟨by simp [rateLimitUser002], apply002_cnt_mono op s, ?_⟩
  induction ops generalizing s with
  | nil => simp [rateResults002]
  | cons op' ops ih =>
    have hmono := apply002_cnt_mono op' s
    cases op' with
    | rate =>
      have hfalse : (rateLimitUser002 s).1 = false := by
        simp [rateLimitUser002]
        omega
      simp only [rateResults002, List.all_cons, hfalse]
      simpa using ih (apply002 Op002.rate s) (by omega)
    | ban now d => simpa [rateResults002] using ih (apply002 (Op002.ban now d) s) (by omega)
    | check now => simpa [rateResults002] using ih (apply002 (Op002.check now) s) (by omega)

/-- Witness for C10 at a counter already past 30 (`cnt = 31`), with a
subsequent run containing a ban, a ban check, and two limiter calls. -/
theorem c10_counter_never_resets_witness :
    (30 < (State002.mk (some 31) none).cnt.getD 0) ∧
    ((rateLimitUser002 ⟨some 31, none⟩).2.cnt.getD 0 = 31 + 1 ∧
      (State002.mk (some 31) none).cnt.getD 0 ≤
        (apply002 Op002.rate ⟨some 31, none⟩).cnt.getD 0 ∧
      (rateResults002 [Op002.rate, Op002.ban 0 3600000, Op002.check 99999999, Op002.rate]
        ⟨some 31, none⟩).all (fun b => b = false) = true) :=
  ⟨by decide,
    c10_counter_never_resets ⟨some 31, none⟩ Op002.rate
      [Op002.rate, Op002.ban 0 3600000, Op002.check 99999999, Op002.rate] (by decide)⟩

theorem lruApply_bound (op : LRUOp) (c : SimpleLRUCache Nat Nat)
    (hcap : c.capacity = 1000) (hlen : c.cache.length ≤ 1000) :
    (lruApply op c).capacity = 1000 ∧ (lruApply op c).cache.length ≤ 1000 := by
  cases op with
  | get k =>
    simp only [lruApply, lruGet]
    cases hf : c.cache.find? (fun e => decide (e.1 = k)) with
    | none => exact ⟨hcap, hlen⟩
    | some e =>
      have hmem := List.mem_of_find?_eq_some hf
      have hp := List.find?_some hf
      refine ⟨hcap, ?_⟩
      have h1 : (c.cache.eraseP (fun x => decide (x.1 = k))).length = c.cache.length - 1 :=
        List.length_eraseP_of_mem hmem hp
      have h2 : 1 ≤ c.cache.length := List.length_pos.mpr (List.ne_nil_of_mem hmem)
      simp [h1]
      omega
  | set k v =>
    simp only [lruApply, lruSet]
    by_cases hany : c.cache.any (fun e => decide (e.1 = k)) = true
    · have h1 : (c.cache.eraseP (fun x => decide (x.1 = k))).length = c.cache.length - 1 := by
        simp [List.length_eraseP, hany]
      have h2 : 1 ≤ c.cache.length := by
        rcases List.any_eq_true.mp hany with ⟨x, hx, _⟩
        exact List.length_pos.mpr (List.ne_nil_of_mem hx)
      rw [if_pos hany]
      refine ⟨hcap, ?_⟩
      simp [h1]
      omega
    · rw [if_neg hany]
      by_cases hfull : c.capacity ≤ c.cache.length
      · rw [if_pos hfull]
        cases hc : c.cache with
        | nil => exact ⟨hcap, by simp⟩
        | cons e rest =>
          have : rest.length + 1 ≤ 1000 := by rw [hc] at hlen; simpa using hlen
          refine ⟨hcap, ?_⟩
          simp
          omega
      · rw [if_neg hfull]
        have : c.cache.length < 1000 := by rw [hcap] at hfull; omega
        refine ⟨hcap, ?_⟩
        simp
        omega
  | has k => exact ⟨hcap, hlen⟩

theorem runLRU_bound_aux (ops : List LRUOp) (c : SimpleLRUCache Nat Nat)
    (hcap : c.capacity = 1000) (hlen : c.cache.length ≤ 1000) :
    (ops.foldl (fun c op => lruApply op c) c).capacity = 1000 ∧
    (ops.foldl (fun c op => lruApply op c) c).cache.length ≤ 1000 := by
  induction ops generalizing c with
  | nil => exact ⟨hcap, hlen⟩
  | cons op ops ih =>
    have h := lruApply_bound op c hcap hlen
    simpa using ih (lruApply op c) h.1 h.2

/-- C8: over every operation sequence on a `SimpleLRUCache` of capacity 1000,
the entry count never exceeds 1000; and a `set` of an absent key when exactly
1000 entries are held drops exactly the head entry — the least recently
refreshed one, since `get` and `set` both move their key to the tail — and
appends the new entry, leaving the size at exactly 1000. -/
theorem c8_lru_capacity_eviction (ops ops' : List LRUOp) (k v : Nat)
    (h1 : (runLRU ops).cache.length = 1000)
    (h2 : lruHas (runLRU ops) k = false) :
    (runLRU ops').cache.length ≤ 1000 ∧
    lruSet (runLRU ops) k v = ⟨(runLRU ops).cache.tail ++ [(k, v)], 1000⟩ ∧
    (lruSet (runLRU ops) k v).cache.length = 1000 := by
  have hbound := runLRU_bound_aux ops ⟨[], 1000⟩ rfl (by simp)
  have hcap : (runLRU ops).capacity = 1000 := hbound.1
  have hany : (runLRU ops).cache.any (fun e => decide (e.1 = k)) = false := h2
  have hset : lruSet (runLRU ops) k v = ⟨(runLRU ops).cache.tail ++ [(k, v)], 1000⟩ := by
    rw [lruSet, if_neg (by simp [hany]), if_pos (by rw [hcap, h1]), hcap]
    cases hc : (runLRU ops).cache with
    | nil => rw [hc] at h1; simp at h1
    | cons e rest => simp
  refine ⟨(runLRU_bound_aux ops' ⟨[], 1000⟩ rfl (by simp)).2, hset, ?_⟩
  rw [hset]
  cases hc : (runLRU ops).cache with
  | nil => rw [hc] at h1; simp at h1
  | cons e rest =>
    rw [hc] at h1
    simp at h1 ⊢
    omega

theorem fill_not_has (n m : Nat) (h : n ≤ m) :
    ((List.range n).map (fun i => ((i : Nat), (0 : Nat)))).any
      (fun e => decide (e.1 = m)) = false := by
  simp only [List.any_eq_false, List.mem_map, List.mem_range]
  rintro e ⟨i, hi, rfl⟩
  simp
  omega

theorem runLRU_fill (n : Nat) (h : n ≤ 1000) :
    runLRU (fillOps n) = ⟨(List.range n).map (fun i => (i, 0)), 1000⟩ := by
  induction n with
  | zero => simp [runLRU, fillOps]
  | succ m ih =>
    have hm : m ≤ 1000 := by omega
    have hstep : runLRU (fillOps (m + 1)) =
        lruApply (LRUOp.set m 0) (runLRU (fillOps m)) := by
      simp [runLRU, fillOps, List.range_succ]
    rw [hstep, ih hm]
    have hlen : ((List.range m).map (fun i => ((i : Nat), (0 : Nat)))).length = m := by simp
    have hnothas := fill_not_has m m le_rfl
    simp only [lruApply, lruSet, hnothas, Bool.false_eq_true, if_false]
    have : ¬(1000 ≤ ((List.range m).map (fun i => ((i : Nat), (0 : Nat)))).length) := by
      rw [hlen]; omega
    simp only [this, if_false]
    simp [List.range_succ]

set_option maxRecDepth 4000 in
/-- Witness for C8: the cache filled with the 1000 distinct keys `0..999`,
then `set` of the absent key 1000. -/
theorem c8_lru_capacity_eviction_witness :
    ((runLRU (fillOps 1000)).cache.length = 1000 ∧
      lruHas (runLRU (fillOps 1000)) 1000 = false) ∧
    ((runLRU (fillOps 1000)).cache.length ≤ 1000 ∧
      lruSet (runLRU (fillOps 1000)) 1000 0 =
        ⟨(runLRU (fillOps 1000)).cache.tail ++ [(1000, 0)], 1000⟩ ∧
      (lruSet (runLRU (fillOps 1000)) 1000 0).cache.length = 1000) := by
  have hfill := runLRU_fill 1000 le_rfl
  have hlen : (runLRU (fillOps 1000)).cache.length = 1000 := by rw [hfill]; simp
  have hhas : lruHas (runLRU (fillOps 1000)) 1000 = false := by
    rw [lruHas, hfill]
    exact fill_not_has 1000 1000 le_rfl
  exact ⟨⟨hlen, hhas⟩, c8_lru_capacity_eviction (fillOps 1000) (fillOps 1000) 1000 0 hlen hhas⟩

theorem stripGo_append_nlnl (op cl : Char) (hop : op ≠ '\n') (hcl : cl ≠ '\n')
    (p2 p1 : List Char) (pending : Option (List Char)) (h : '\n' ∉ p1) :
    stripGo op cl pending (p1 ++ '\n' :: '\n' :: p2) =
      stripGo op cl pending p1 ++ '\n' :: '\n' :: stripGo op cl none p2 := by
  induction p1 generalizing pending with
  | nil =>
    cases pending with
    | none => simp [stripGo, Ne.symm hop]
    | some buf => simp [stripGo, Ne.symm hop, Ne.symm hcl]
  | cons c p1 ih =>
    simp only [List.mem_cons, not_or] at h
    obtain ⟨hc, hp⟩ := h
    cases pending with
    | none =>
      by_cases hco : c = op
      · simp [stripGo, hco, ih _ hp]
      · simp [stripGo, hco, ih _ hp]
    | some buf =>
      by_cases hcc : c = cl
      · simp [stripGo, hcc, ih _ hp]
      · simp [stripGo, hcc, Ne.symm hc, ih _ hp]

theorem stripGo_no_nl (op cl : Char) (hop : op ≠ '\n')
    (l : List Char) (pending : Option (List Char)) (hl : '\n' ∉ l)
    (hb : ∀ buf, pending = some buf → '\n' ∉ buf) :
    '\n' ∉ stripGo op cl pending l := by
  induction l generalizing pending with
  | nil =>
    cases pending with
    | none => simp [stripGo]
    | some buf =>
      have hbuf := hb buf rfl
      simp [stripGo, List.mem_reverse]
      exact ⟨fun hh => hop hh.symm, hbuf⟩
  | cons c l ih =>
    simp only [List.mem_cons, not_or] at hl
    obtain ⟨hc, hl⟩ := hl
    cases pending with
    | none =>
      by_cases hco : c = op
      · simpa [stripGo, hco] using ih (some []) hl (by simp)
      · simp [stripGo, hco]
        exact ⟨hc, ih none hl (by simp)⟩
    | some buf =>
      have hbuf := hb buf rfl
      by_cases hcc : c = cl
      · simpa [stripGo, hcc] using ih none hl (by simp)
      · simp [stripGo, hcc, Ne.symm hc]
        refine ih (some (c :: buf)) hl ?_
        rintro buf' hb'
        injection hb' with hb'
        subst hb'
        simp [List.mem_cons, not_or]
        exact ⟨hc, hbuf⟩

theorem boldGo_nl_cons (p : List Char) :
    boldGo none ('\n' :: p) = '\n' :: boldGo none p := by
  cases p <;> simp [boldGo]

theorem boldGo_append_nlnl (p2 : List Char) :
    ∀ (p1 : List Char) (pending : Option (List Char)), '\n' ∉ p1 →
      boldGo pending (p1 ++ '\n' :: '\n' :: p2) =
        boldGo pending p1 ++ '\n' :: '\n' :: boldGo none p2
  | [], none, _ => by simp [boldGo, boldGo_nl_cons]
  | [], some buf, _ => by simp [boldGo, boldGo_nl_cons]
  | [c], pending, h => by
    have hc : ('\n' : Char) ≠ c := by simpa using h
    cases pending with
    | none => simp [boldGo, boldGo_nl_cons]
    | some buf => simp [boldGo, boldGo_nl_cons, Ne.symm hc]
  | c1 :: c2 :: rest, pending, h => by
    simp only [List.mem_cons, not_or] at h
    obtain ⟨h1, h2, hr⟩ := h
    have hcr : '\n' ∉ c2 :: rest := by simp [List.mem_cons, not_or]; exact ⟨h2, hr⟩
    cases pending with
    | none =>
      by_cases hs : c1 = '*' ∧ c2 = '*'
      · have hrec := boldGo_append_nlnl p2 rest (some []) hr
        simp [boldGo, hs, hrec]
      · have hrec := boldGo_append_nlnl p2 (c2 :: rest) none hcr
        simpa [boldGo, hs] using hrec
    | some buf =>
      by_cases hs : c1 = '*' ∧ c2 = '*'
      · have hrec := boldGo_append_nlnl p2 rest none hr
        simp [boldGo, hs, hrec]
      · have hrec := boldGo_append_nlnl p2 (c2 :: rest) (some (c1 :: buf)) hcr
        simpa [boldGo, hs, Ne.symm h1] using hrec
termination_by p1 _ _ => p1.length

theorem boldGo_no_nl : ∀ (l : List Char) (pending : Option (List Char)),
    '\n' ∉ l → (∀ buf, pending = some buf → '\n' ∉ buf) → '\n' ∉ boldGo pending l
  | [], none, _, _ => by simp [boldGo]
  | [], some buf, _, hb => by
    have hbuf := hb buf rfl
    simp [boldGo, List.mem_reverse]
    exact hbuf
  | [c], none, hl, _ => by simpa [boldGo] using by simpa using hl
  | [c], some buf, hl, hb => by
    have hbuf := hb buf rfl
    have hc : ('\n' : Char) ≠ c := by simpa using hl
    simp [boldGo, List.mem_reverse, List.mem_cons]
    exact ⟨hbuf, hc⟩
  | c1 :: c2 :: rest, pending, hl, hb => by
    simp only [List.mem_cons, not_or] at hl
    obtain ⟨h1, h2, hr⟩ := hl
    have hcr : '\n' ∉ c2 :: rest := by simp [List.mem_cons, not_or]; exact ⟨h2, hr⟩
    cases pending with
    | none =>
      by_cases hs : c1 = '*' ∧ c2 = '*'
      · simpa [boldGo, hs] using boldGo_no_nl rest (some []) hr (by simp)
      · simp [boldGo, hs]
        exact ⟨h1, boldGo_no_nl (c2 :: rest) none hcr (by simp)⟩
    | some buf =>
      have hbuf := hb buf rfl
      by_cases hs : c1 = '*' ∧ c2 = '*'
      · simp [boldGo, hs, List.mem_reverse]
        exact ⟨hbuf, boldGo_no_nl rest none hr (by simp)⟩
      · simp [boldGo, hs, Ne.symm h1]
        refine boldGo_no_nl (c2 :: rest) (some (c1 :: buf)) hcr ?_
        rintro buf' hb'
        injection hb' with hb'
        subst hb'
        simp [List.mem_cons, not_or]
        exact ⟨h1, hbuf⟩
termination_by l _ _ _ => l.length

theorem splitGo_pass (a : List Char) (h : '\n' ∉ a) :
    ∀ (r acc : List Char), splitGo (a ++ r) acc 0 = splitGo r (acc ++ a) 0 := by
  induction a with
  | nil => intro r acc; simp
  | cons c a ih =>
    intro r acc
    simp only [List.mem_cons, not_or] at h
    obtain ⟨hc, ha⟩ := h
    simp [splitGo, Ne.symm hc, ih ha]

theorem splitGo_end (b : List Char) (h : '\n' ∉ b) :
    ∀ acc : List Char, splitGo b acc 0 = [acc ++ b] := by
  induction b with
  | nil => intro acc; simp [splitGo]
  | cons c b ih =>
    intro acc
    simp only [List.mem_cons, not_or] at h
    obtain ⟨hc, hb⟩ := h
    simp [splitGo, Ne.symm hc, ih hb]

theorem splitParas_two (a b : List Char) (ha : '\n' ∉ a) (hb : '\n' ∉ b) :
    splitParas (a ++ '\n' :: '\n' :: b) = [a, b] := by
  rw [splitParas, splitGo_pass a ha]
  cases b with
  | nil => simp [splitGo]
  | cons c b' =>
    simp only [List.mem_cons, not_or] at hb
    obtain ⟨hc, hb'⟩ := hb
    simp [splitGo, Ne.symm hc, splitGo_end b' hb']

theorem appClean_append (p1 p2 : List Char) (h1 : '\n' ∉ p1) :
    appClean (p1 ++ '\n' :: '\n' :: p2) = appClean p1 ++ '\n' :: '\n' :: appClean p2 := by
  unfold appClean stripDelim collapseBoldApp
  rw [stripGo_append_nlnl '[' ']' (by decide) (by decide) p2 p1 none h1]
  exact boldGo_append_nlnl _ _ none (stripGo_no_nl '[' ']' (by decide) p1 none h1 (by simp))

theorem appClean_no_nl (p : List Char) (h : '\n' ∉ p) : '\n' ∉ appClean p :=
  boldGo_no_nl _ none (stripGo_no_nl '[' ']' (by decide) p none h (by simp)) (by simp)

/-- C6 (amended): for any two newline-free paragraphs separated by one blank
line, `processUserMessage` of `src/src/app.ts` emits exactly two fragments, in
order, each equal to the trimmed normalization (citation-stripping and
emphasis-collapsing) of its paragraph. -/
theorem c6_two_paragraphs_two_fragments (p1 p2 : List Char)
    (h1 : '\n' ∉ p1) (h2 : '\n' ∉ p2) :
    appEmits (some (p1 ++ '\n' :: '\n' :: p2)) =
      [trimChars (appClean p1), trimChars (appClean p2)] ∧
    (appEmits (some (p1 ++ '\n' :: '\n' :: p2))).length = 2 := by
  have hsplit : splitParas (appClean (p1 ++ '\n' :: '\n' :: p2)) =
      [appClean p1, appClean p2] := by
    rw [appClean_append p1 p2 h1]
    exact splitParas_two _ _ (appClean_no_nl p1 h1) (appClean_no_nl p2 h2)
  constructor
  · simp [appEmits, hsplit]
  · simp [appEmits, hsplit]

/-- C6 counterexample: on the response `"a\n[c]\nb"` (a citation alone on a
middle line, no blank line), the code strips the citation first and the
resulting blank line makes it emit two fragments, while the split-first
pipeline of the claim yields one fragment; so the claimed order of
operations does not match the code. -/
theorem c6_order_counterexample :
    appEmits (some ("a\n[c]\nb".toList)) = [['a'], ['b']] ∧
    specSplitEmits ("a\n[c]\nb".toList) = [['a', '\n', '\n', 'b']] ∧
    appEmits (some ("a\n[c]\nb".toList)) ≠ specSplitEmits ("a\n[c]\nb".toList) := by
  decide

/-- Witness for C6 (amended) on the paragraphs `"Hola **mundo** [1]"` and
`" adios "`. -/
theorem c6_two_paragraphs_two_fragments_witness :
    ('\n' ∉ "Hola **mundo** [1]".toList ∧ '\n' ∉ " adios ".toList) ∧
    (appEmits (some ("Hola **mundo** [1]".toList ++ '\n' :: '\n' :: " adios ".toList)) =
        [trimChars (appClean "Hola **mundo** [1]".toList),
         trimChars (appClean " adios ".toList)] ∧
      (appEmits (some ("Hola **mundo** [1]".toList ++ '\n' :: '\n' :: " adios ".toList))).length =
        2) :=
  ⟨by decide,
    c6_two_paragraphs_two_fragments "Hola **mundo** [1]".toList " adios ".toList
      (by decide) (by decide)⟩

/-- C5: when the completion call of one queued task fails (throws or returns
empty), the drain loop of `src/unnamed/part_001` emits exactly one generic
failure notice in that task's position and still processes every task before
and after it, with their emissions unchanged — the failure never aborts the
drain. -/
theorem c5_failure_recovered_locally (pre post : List (Option (List Char)))
    (t : Option (List Char)) (hf : taskFails t = true) :
    drainLoop001 (pre ++ t :: post) =
      drainLoop001 pre ++ [failNotice] ++ drainLoop001 post := by
  have hemit : processEmits001 t = [failNotice] := by
    cases t with
    | none => rfl
    | some r =>
      simp [taskFails] at hf
      simp [processEmits001, hf]
  induction pre with
  | nil => simp [drainLoop001, hemit]
  | cons q pre ih => simp [drainLoop001, ih]

/-- Witness for C5: a three-task queue whose middle task's completion call
throws; tasks 1 and 3 are still processed and the failure yields exactly the
notice. -/
theorem c5_failure_recovered_locally_witness :
    taskFails none = true ∧
    drainLoop001 ([some "Hola".toList] ++ none :: [some "Que tal".toList]) =
      drainLoop001 [some "Hola".toList] ++ [failNotice] ++
        drainLoop001 [some "Que tal".toList] :=
  ⟨rfl, c5_failure_recovered_locally [some "Hola".toList] [some "Que tal".toList] none rfl⟩

theorem handleQueue000_unlocked (tasks : List (Option (List Char) × Nat))
    (trailing : Nat) :
    handleQueue000 false tasks trailing =
      HBEvent.hbStart ::
        (drainTrace000 tasks ++ List.replicate trailing HBEvent.hbTick ++
          [HBEvent.hbStop]) := rfl

theorem drainTrace000_count_start (tasks : List (Option (List Char) × Nat)) :
    (drainTrace000 tasks).count HBEvent.hbStart = 0 := by
  induction tasks with
  | nil => rfl
  | cons tk rest ih =>
    obtain ⟨t, k⟩ := tk
    simp [drainTrace000, List.count_append, List.count_replicate, ih]

theorem drainTrace000_count_stop (tasks : List (Option (List Char) × Nat)) :
    (drainTrace000 tasks).count HBEvent.hbStop = 0 := by
  induction tasks with
  | nil => rfl
  | cons tk rest ih =>
    obtain ⟨t, k⟩ := tk
    simp [drainTrace000, List.count_append, List.count_replicate, ih]

/-- C7: every drain session of `src/unnamed/part_000` (one unlocked
`handleQueue` invocation) begins with exactly one heartbeat start, ends with
exactly one heartbeat stop (whatever the tasks' outcomes and tick counts),
every event — in particular every tick — precedes that stop, so the signal
ceases when the queue drains; and a locked invocation produces no session and
no heartbeat at all. -/
theorem c7_heartbeat_once_per_session (tasks : List (Option (List Char) × Nat))
    (trailing : Nat) :
    (handleQueue000 false tasks trailing).head? = some HBEvent.hbStart ∧
    (handleQueue000 false tasks trailing).count HBEvent.hbStart = 1 ∧
    (handleQueue000 false tasks trailing).count HBEvent.hbStop = 1 ∧
    (handleQueue000 false tasks trailing).getLast? = some HBEvent.hbStop ∧
    handleQueue000 true tasks trailing = [] := by
  refine ⟨rfl, ?_, ?_, ?_, rfl⟩
  · simp [handleQueue000, List.count_append, List.count_replicate,
      drainTrace000_count_start]
  · simp [handleQueue000, List.count_append, List.count_replicate,
      drainTrace000_count_stop]
  · rw [handleQueue000_unlocked]
    rw [show HBEvent.hbStart ::
        (drainTrace000 tasks ++ List.replicate trailing HBEvent.hbTick ++
          [HBEvent.hbStop]) =
        (HBEvent.hbStart :: (drainTrace000 tasks ++
          List.replicate trailing HBEvent.hbTick)) ++ [HBEvent.hbStop] by simp]
    exact List.getLast?_concat _

theorem appStep_inv {s s' : SysState} (hs : appInv s) (h : AppStep s s') : appInv s' := by
  obtain ⟨hlen, hempty, hlock, harr, hemit⟩ := hs
  cases h with
  | arriveSpawn t hl hq =>
    have hic : s.inCalls = [] := by
      by_contra hne
      rw [hlock hne] at hl
      simp [lockHeld] at hl
    refine ⟨by simp [hic], by simp, fun _ => rfl, ?_, hemit⟩
    simp [harr, hic, hq]
  | arriveQueue t h =>
    have hic : s.inCalls ≠ [] := by
      intro hnil
      obtain ⟨hq0, hl0⟩ := hempty hnil
      rcases h with h | h
      · rw [hl0] at h; exact Bool.false_ne_true h
      · exact h hq0
    refine ⟨hlen, fun hh => absurd hh hic, fun _ => hlock hic, ?_, hemit⟩
    simp [harr]
  | resumeNext t l1 l2 t' q' hc hq =>
    have h12 : l1 = [] ∧ l2 = [] := by
      rw [hc] at hlen
      simp at hlen
      exact ⟨List.eq_nil_of_length_eq_zero (by omega),
        List.eq_nil_of_length_eq_zero (by omega)⟩
    obtain ⟨h1, h2⟩ := h12
    subst h1; subst h2
    refine ⟨by simp, by simp, fun _ => rfl, ?_, ?_⟩
    · rw [harr, hc, hq]; simp
    · rw [hemit]; simp
  | resumeExit t l1 l2 hc hq =>
    have h12 : l1 = [] ∧ l2 = [] := by
      rw [hc] at hlen
      simp at hlen
      exact ⟨List.eq_nil_of_length_eq_zero (by omega),
        List.eq_nil_of_length_eq_zero (by omega)⟩
    obtain ⟨h1, h2⟩ := h12
    subst h1; subst h2
    refine ⟨by simp, by simp [lockHeld], fun hh => absurd rfl hh, ?_, ?_⟩
    · rw [harr, hc, hq]; simp
    · rw [hemit]; simp

theorem appReachable_inv (s : SysState) (h : AppReachable s) : appInv s := by
  induction h with
  | refl =>
    exact ⟨by simp [initState], fun _ => ⟨rfl, rfl⟩, fun hh => absurd rfl hh, rfl, rfl⟩
  | tail _ hlast ih => exact appStep_inv ih hlast

/-- C2: in every reachable state of the `src/src/app.ts` event loop, at most
one completion call (`toAsk`, wrapped by `processUserMessage`) is in flight
for the user: the per-user lock ensures a single drain loop consumes the
queue, and the drain awaits each call's settlement before starting the
next. -/
theorem c2_completion_calls_serialized (s : SysState) (h : AppReachable s) :
    s.inCalls.length ≤ 1 :=
  (appReachable_inv s h).1

/-- C1: in every reachable state of the `src/src/app.ts` event loop, the
fragments emitted so far are exactly the per-task fragments of the settled
tasks, concatenated in settlement order, and the settled tasks form a prefix
of the arrival order (the in-flight call and the queue holding the rest, in
order); hence responses are emitted in arrival order, FIFO per user. -/
theorem c1_fifo_emission_order (s : SysState) (h : AppReachable s) :
    s.emitted = (s.done.map appEmits).flatten ∧
    s.done ++ (s.inCalls ++ s.queue) = s.arrived := by
  have hi := appReachable_inv s h
  exact ⟨hi.2.2.2.2, by rw [hi.2.2.2.1]; simp⟩

/-- Witness for C1 at the concrete reachable state `demoState1`. -/
theorem c1_fifo_emission_order_witness :
    AppReachable demoState1 ∧
    (demoState1.emitted = (demoState1.done.map appEmits).flatten ∧
      demoState1.done ++ (demoState1.inCalls ++ demoState1.queue) = demoState1.arrived) := by
  have h1 : AppStep initState demoState1 := AppStep.arriveSpawn initState demoTask rfl rfl
  have hr : AppReachable demoState1 := Relation.ReflTransGen.single h1
  exact ⟨hr, c1_fifo_emission_order demoState1 hr⟩

/-- Witness for C2 at the concrete reachable state `demoState2`. -/
theorem c2_completion_calls_serialized_witness :
    AppReachable demoState2 ∧ demoState2.inCalls.length ≤ 1 := by
  have h1 : AppStep initState demoState1 := AppStep.arriveSpawn initState demoTask rfl rfl
  have h2 : AppStep demoState1 demoState2 :=
    AppStep.resumeExit demoState1 demoTask [] [] rfl rfl
  have hr : AppReachable demoState2 :=
    Relation.ReflTransGen.tail (Relation.ReflTransGen.single h1) h2
  exact ⟨hr, c2_completion_calls_serialized demoState2 hr⟩

end WhatsBot
